import Mathlib

/-!
Verification of the knowledge-base core of this repository.

The Python sources are shallowly embedded: Python `str` values are modelled
as `List Char` (`PyStr`), Python `int` as `Int` (or `Nat` where the source
value is provably non-negative), fallible calls as `Option`, and the
database tables as explicit lists of rows.  Floating-point similarity
scores are modelled as rationals, with the numeric cosine computation
abstracted as a parameter where only the surrounding logic is at issue.
-/

/-- Python strings are sequences of code points. -/
abbrev PyStr := List Char

/-- The whitespace characters recognised by Python's no-argument `str.split`
and by `str.strip`: space, tab, newline, carriage return, vertical tab and
form feed. -/
def pyIsSpace (c : Char) : Bool :=
  c = ' ' || c = '\t' || c = '\n' || c = '\r' || c = '\x0b' || c = '\x0c'

/-- Split a string at every character satisfying `p`, keeping empty pieces,
as Python's `str.split(sep)` does for a one-character separator.
`splitEvery p [] = [[]]`, matching Python's `"".split(sep) == ['']`. -/
def splitEvery (p : Char → Bool) : PyStr → List PyStr
  | [] => [[]]
  | c :: rest =>
    if p c then [] :: splitEvery p rest
    else
      match splitEvery p rest with
      | [] => [[c]]
      | piece :: pieces => (c :: piece) :: pieces

/-- Python's `text.split('\n')`. -/
def splitOnNl (s : PyStr) : List PyStr := splitEvery (fun c => c = '\n') s

/-- Python's no-argument `str.split()`: maximal runs of non-whitespace.
It equals splitting at every whitespace character and discarding the empty
pieces. -/
def pyWords (s : PyStr) : List PyStr :=
  (splitEvery pyIsSpace s).filter (fun w => w ≠ [])

/-- Python's `sep.join(pieces)`. -/
def joinWith (sep : PyStr) : List PyStr → PyStr
  | [] => []
  | [x] => x
  | x :: y :: rest => x ++ sep ++ joinWith sep (y :: rest)

/-- Python's `str.strip()`: remove leading and trailing whitespace. -/
def pyStrip (s : PyStr) : PyStr :=
  ((s.dropWhile pyIsSpace).reverse.dropWhile pyIsSpace).reverse

/- ### C1: `DocumentStorageService.delete_document_chunks`
(`backend/knowledge_base/document_storage.py`, lines 498-568)

The store is modelled per table: the function receives the contents of the
table selected by `kb_type` (`global_knowledge_base`,
`thread_knowledge_base` or `agent_knowledge_base_entries`). -/

/-- One row of a knowledge-base table, with the columns
`delete_document_chunks` touches.  `source_metadata_original_filename`
models `row["source_metadata"]["original_filename"]` (`none` when absent). -/
structure KBEntry where
  id : Nat
  account_id : String
  thread_id : Option String
  agent_id : Option String
  source_type : String
  source_metadata_original_filename : Option String
deriving DecidableEq

/-- The row shape produced by `select('id')`: the dictionaries in
`result.data` contain only the `id` key. -/
structure SelectedIdRow where
  id : Nat
deriving DecidableEq

/-- `chunk.get("source_metadata", {}).get("original_filename")` evaluated on
a row fetched with `select('id')`: the `source_metadata` key is absent, so
the first `get` yields `{}` and the second yields `None`. -/
def selectedRowOriginalFilename (_row : SelectedIdRow) : Option String := none

/-- The scope filters applied by the `eq` chains in
`delete_document_chunks` (branching on `kb_type`), plus the common
`eq('source_type', 'file_upload')`. -/
def deleteScopeFilter (kb_type account_id : String) (thread_id agent_id : Option String)
    (e : KBEntry) : Bool :=
  (if kb_type = "global" then e.account_id == account_id
   else if kb_type = "thread" then e.account_id == account_id && e.thread_id == thread_id
   else e.account_id == account_id && e.agent_id == agent_id)
  && e.source_type == "file_upload"

/-- `DocumentStorageService.delete_document_chunks`.  Returns the table
contents after the call together with `some chunks_deleted` on success and
`none` for the invalid-`kb_type` error return.  The fetch uses
`select('id')`, so the subsequent filename filter inspects rows that carry
only an `id`. -/
def delete_document_chunks (table : List KBEntry) (account_id filename kb_type : String)
    (thread_id agent_id : Option String) : List KBEntry × Option Nat :=
  if kb_type = "global" || kb_type = "thread" || kb_type = "agent" then
    let fetched : List SelectedIdRow :=
      (table.filter (fun e => deleteScopeFilter kb_type account_id thread_id agent_id e)).map
        (fun e => SelectedIdRow.mk e.id)
    if fetched.isEmpty then (table, some 0)
    else
      let chunk_ids : List Nat :=
        (fetched.filter (fun row => selectedRowOriginalFilename row == some filename)).map
          (fun r => r.id)
      let table2 := if chunk_ids.isEmpty then table
        else table.filter (fun e => !(chunk_ids.contains e.id))
      (table2, some chunk_ids.length)
  else (table, none)

/-- The concrete failing input for C1: one file-upload chunk in the global
table whose recorded original filename is `doc.txt`. -/
def c1Entry : KBEntry :=
  ⟨1, "acct", none, none, "file_upload", some "doc.txt"⟩

/- ### C2: the `/upload` endpoint's declared-MIME-type gate
(`backend/knowledge_base/api.py`, lines 1129-1170) -/

/-- The `allowed_types` list in `upload_document`. -/
def allowed_types : List String :=
  ["application/pdf",
   "text/csv",
   "application/vnd.openxmlformats-officedocument.wordprocessingml.document",
   "text/plain",
   "text/markdown",
   "application/json"]

/-- The 50 MiB upload ceiling (`max_size = 50 * 1024 * 1024`). -/
def MAX_UPLOAD_SIZE : Nat := 50 * 1024 * 1024

/-- The two rejections `upload_document` can issue before processing. -/
inductive UploadReject where
  | unsupportedType
  | tooLarge
deriving DecidableEq

/-- The validation sequence of `upload_document` that runs before any
processing: declared content type first, then the size ceiling.
`none` means the request proceeds to processing. -/
def upload_validate (content_type : String) (size : Nat) : Option UploadReject :=
  if content_type ∉ allowed_types then some UploadReject.unsupportedType
  else if size > MAX_UPLOAD_SIZE then some UploadReject.tooLarge
  else none

/-- Modelled from the spec: the nine "supported ingest MIME types" the spec
asserts are the exact accepted set (§6).  Stated for comparison with the
code's `allowed_types`. -/
def spec_supported_mime_types : List String :=
  ["application/pdf",
   "text/csv",
   "application/vnd.openxmlformats-officedocument.wordprocessingml.document",
   "text/plain",
   "text/markdown",
   "application/json",
   "text/html",
   "application/vnd.ms-excel",
   "application/vnd.openxmlformats-officedocument.spreadsheetml.sheet"]

/- ### C7/C10: `VectorService.chunk_document`
(`backend/knowledge_base/vector_service.py`, lines 63-91)

The `while` loop is embedded with explicit fuel: `none` means the fuel ran
out before the loop finished.  `start` is an `Int`, as in Python, since
`start = end - overlap` can go negative. -/

/-- Python `s[i]`: a negative index counts from the end.  An access outside
the range raises `IndexError` in Python; it is modelled as `none` (no
execution considered below performs such an access). -/
def pyCharAt (s : PyStr) (i : Int) : Option Char :=
  let j := if i < 0 then (s.length : Int) + i else i
  if 0 ≤ j then s.get? j.toNat else none

/-- Normalise one bound of a Python slice `s[a:b]` for a string of length
`len`: negative bounds count from the end and both are clamped to
`[0, len]`. -/
def pySliceIdx (len : Nat) (i : Int) : Nat :=
  if i < 0 then ((len : Int) + i).toNat else min i.toNat len

/-- Python `s[a:b]`. -/
def pySlice (s : PyStr) (a b : Int) : PyStr :=
  (s.take (pySliceIdx s.length b)).drop (pySliceIdx s.length a)

/-- The test `content[i] in '.!?'` from the sentence-boundary scan. -/
def isSentenceEnd (c : Option Char) : Bool :=
  match c with
  | some c => c = '.' || c = '!' || c = '?'
  | none => false

/-- The scan `for i in range(end - 1, search_start, -1)` looking for a
sentence terminator: `k` is the number of indices left to visit and `i` the
current one; it returns the first (largest) index holding `.`, `!` or `?`,
if any. -/
def snapFind (content : PyStr) : Nat → Int → Option Int
  | 0, _ => none
  | k + 1, i => if isSentenceEnd (pyCharAt content i) then some i
      else snapFind content k (i - 1)

/-- One loop iteration's computation of `end`: start from
`end = start + chunk_size` (the first summand below) and, when that is not
already past the end of the content, back off to one past the last
sentence terminator found strictly after
`search_start = max(start, end - 100)`, when one exists. -/
def chunkDocEnd (content : PyStr) (chunk_size start : Int) : Int :=
  if start + chunk_size < (content.length : Int) then
    match snapFind content
        (start + chunk_size - 1 - max start (start + chunk_size - 100)).toNat
        (start + chunk_size - 1) with
    | some i => i + 1
    | none => start + chunk_size
  else start + chunk_size

/-- `chunk = content[start:end].strip(); if chunk: chunks.append(chunk)` —
the chunk list after one iteration starting at `start`. -/
def chunkDocEmit (content : PyStr) (chunk_size start : Int) (acc : List PyStr) :
    List PyStr :=
  if pyStrip (pySlice content start (chunkDocEnd content chunk_size start)) = [] then acc
  else acc ++ [pyStrip (pySlice content start (chunkDocEnd content chunk_size start))]

/-- `start = end - overlap` — the next window start. -/
def chunkDocNext (content : PyStr) (chunk_size overlap start : Int) : Int :=
  chunkDocEnd content chunk_size start - overlap

/-- The `while start < len(content)` loop of `chunk_document`: slice out a
chunk ending at `chunkDocEnd`, strip it, append it when non-empty
(`chunkDocEmit`), advance `start` by `end - overlap` (`chunkDocNext`), and
stop when `start` reaches the end of the content. -/
def chunkDocLoop (content : PyStr) (chunk_size overlap : Int) :
    Nat → Int → List PyStr → Option (List PyStr)
  | 0, start, acc => if (content.length : Int) ≤ start then some acc else none
  | fuel + 1, start, acc =>
    if (content.length : Int) ≤ start then some acc
    else if (content.length : Int) ≤ chunkDocNext content chunk_size overlap start then
      some (chunkDocEmit content chunk_size start acc)
    else
      chunkDocLoop content chunk_size overlap fuel
        (chunkDocNext content chunk_size overlap start)
        (chunkDocEmit content chunk_size start acc)

/-- `VectorService.chunk_document`: content no longer than `chunk_size` is
returned whole as a single chunk, otherwise the windowed loop runs. -/
def chunk_document (content : PyStr) (chunk_size overlap : Int) (fuel : Nat) :
    Option (List PyStr) :=
  if (content.length : Int) ≤ chunk_size then some [content]
  else chunkDocLoop content chunk_size overlap fuel 0 []

/-- A 22-character input on which `chunk_document 10 5` loops forever:
after the first iteration `start` becomes `2 - 5 = -3` and every later
iteration snaps `end` back to the `.` at index 1, leaving `start` at `-3`. -/
def c7Input : PyStr := "a.xxxxxxxxxxxxxxxxxxxx".toList

/- ### C5/C9/C10: `DocumentProcessor._chunk_text`
(`backend/knowledge_base/document_processor.py`, lines 394-437) -/

/-- The chunk dictionaries `_chunk_text` emits: text, character size, word
count, and absolute start/end word indices (Python ints). -/
structure TextChunk where
  text : PyStr
  size : Nat
  word_count : Nat
  start_word : Int
  end_word : Int
deriving DecidableEq

/-- `len(word) + 1` — a word's length counted with a trailing space. -/
def wordSize (w : PyStr) : Nat := w.length + 1

/-- Python `current_chunk[-overlap:]` for `overlap > 0`: the last
`min(overlap, len)` elements. -/
def pyTakeLast (k : Int) (l : List PyStr) : List PyStr :=
  l.drop (l.length - k.toNat)

/-- The chunk dictionary appended by `_chunk_text` when the running chunk
is flushed at absolute word index `i` (also used for the final chunk, with
`i = len(words)`): `' '.join(current_chunk)`, its character length, the
word count, and `start_word = i - len(current_chunk)`,
`end_word = i - 1`. -/
def emitChunk (i : Nat) (current : List PyStr) : TextChunk :=
  ⟨joinWith [' '] current, (joinWith [' '] current).length, current.length,
    (i : Int) - current.length, (i : Int) - 1⟩

/-- `overlap_words = current_chunk[-overlap:] if overlap > 0 else []`. -/
def seedWords (overlap : Int) (current : List PyStr) : List PyStr :=
  if 0 < overlap then pyTakeLast overlap current else []

/-- The `for i, word in enumerate(words)` loop of `_chunk_text`: carries
the absolute index `i`, the accumulating `current_chunk` with its
`current_size`, and the chunks emitted so far; returns the final
`current_chunk` and the emitted chunks.  When adding the next word would
overflow `chunk_size` and the running chunk is non-empty, the chunk is
emitted and the next one re-seeded with the overlap words
(`current_size` restarts at their size); the word is then appended. -/
def chunkTextLoop (chunk_size overlap : Int) :
    List PyStr → Nat → List PyStr → Nat → List TextChunk → List PyStr × List TextChunk
  | [], _, current, _, acc => (current, acc)
  | w :: ws, i, current, current_size, acc =>
    if (current_size : Int) + wordSize w > chunk_size ∧ current ≠ [] then
      chunkTextLoop chunk_size overlap ws (i + 1) (seedWords overlap current ++ [w])
        (((seedWords overlap current).map wordSize).sum + wordSize w)
        (acc ++ [emitChunk i current])
    else
      chunkTextLoop chunk_size overlap ws (i + 1) (current ++ [w])
        (current_size + wordSize w) acc

/-- `DocumentProcessor._chunk_text`: split into words, run the greedy
packing loop, and emit the final partial chunk when any words remain
(its `start_word` is `len(words) - len(current_chunk)` and its `end_word`
is `len(words) - 1`). -/
def chunk_text (chunk_size overlap : Int) (text : PyStr) : List TextChunk :=
  if text = [] then []
  else
    if (chunkTextLoop chunk_size overlap (pyWords text) 0 [] 0 []).1 ≠ [] then
      (chunkTextLoop chunk_size overlap (pyWords text) 0 [] 0 []).2
        ++ [emitChunk (pyWords text).length
              (chunkTextLoop chunk_size overlap (pyWords text) 0 [] 0 []).1]
    else (chunkTextLoop chunk_size overlap (pyWords text) 0 [] 0 []).2

/- ### C3/C4: `VectorService.search_knowledge_base` / `is_query_relevant`
(`backend/knowledge_base/vector_service.py`, lines 149-231)

The candidate rows are the result of the database fetch (the tier/scope
`eq` filters run inside the store); `_calculate_cosine_similarity` is
numpy floating point and is abstracted as a rational-valued scoring
function `sim`, so the theorems below hold for every scoring function —
in particular for the cosine the code computes. -/

/-- A `document_chunks` row as the ranking logic sees it: its embedding,
`none` for a null one. -/
structure ChunkRow where
  id : Nat
  embedding : Option (List ℚ)
deriving DecidableEq

/-- The filter pass of `search_knowledge_base`: keep rows with a truthy
embedding (`chunk.get('embedding')` is falsy for both null and the empty
list) whose similarity to the query embedding reaches the threshold, and
record the `similarity_score` set on each kept row. -/
def searchFilter (sim : List ℚ → List ℚ → ℚ) (q : List ℚ) (threshold : ℚ)
    (rows : List ChunkRow) : List (ChunkRow × ℚ) :=
  rows.filterMap (fun r =>
    match r.embedding with
    | some e =>
      if e ≠ [] then
        if threshold ≤ sim q e then some (r, sim q e) else none
      else none
    | none => none)

/-- `search_knowledge_base` once the query embedding and the fetched rows
are in hand: a missing/empty query embedding returns no results; otherwise
filter by threshold, sort by `similarity_score` descending (Python's
stable `list.sort(..., reverse=True)`), and truncate to `max_results`. -/
def search_knowledge_base (sim : List ℚ → List ℚ → ℚ)
    (query_embedding : Option (List ℚ)) (rows : List ChunkRow)
    (similarity_threshold : ℚ) (max_results : Nat) : List (ChunkRow × ℚ) :=
  match query_embedding with
  | none => []
  | some q =>
    if q = [] then []
    else ((searchFilter sim q similarity_threshold rows).mergeSort
        (fun a b => decide (b.2 ≤ a.2))).take max_results

/-- `is_query_relevant`: run the search with the relevance threshold as
similarity threshold and `max_results = 1`; if nothing comes back return
`(False, 0.0)`, otherwise report whether the maximum returned score
reaches the threshold, together with that score. -/
def is_query_relevant (sim : List ℚ → List ℚ → ℚ)
    (query_embedding : Option (List ℚ)) (rows : List ChunkRow)
    (relevance_threshold : ℚ) : Bool × ℚ :=
  match search_knowledge_base sim query_embedding rows relevance_threshold 1 with
  | [] => (false, 0)
  | p :: rest =>
    ((rest.map Prod.snd).foldl max p.2 ≥ relevance_threshold,
     (rest.map Prod.snd).foldl max p.2)

/-- The constant scoring function used in the C4 counterexample: every
candidate scores 1/2 against every query. -/
def c4Sim : List ℚ → List ℚ → ℚ := fun _ _ => 1 / 2

/-- The single-candidate store used in the C4 counterexample. -/
def c4Rows : List ChunkRow := [⟨1, some [1]⟩]

/- ### C8: `VectorService.generate_chunk_embeddings` and the persisting
caller `process_document_for_kb`
(`backend/knowledge_base/vector_service.py`, lines 45-61 and 113-127) -/

/-- `_preprocess_text`: collapse whitespace runs with
`' '.join(text.split())`, then hard-truncate to 512 characters. -/
def preprocess_text (text : PyStr) : PyStr :=
  (joinWith [' '] (pyWords text)).take 512

/-- `generate_chunk_embeddings`: a single `model.encode` call embeds the
whole preprocessed batch (modelled as `encode`, returning `none` when the
model raises); the `except` branch returns `[None] * len(chunks)`. -/
def generate_chunk_embeddings (encode : List PyStr → Option (List (List ℚ)))
    (chunks : List PyStr) : List (Option (List ℚ)) :=
  match encode (chunks.map preprocess_text) with
  | some embs => embs.map some
  | none => List.replicate chunks.length none

/-- One row of the `chunk_records` list that `process_document_for_kb`
inserts into `document_chunks`, with the fields the claim concerns. -/
structure StoredChunkRecord where
  chunk_index : Nat
  chunk_text : PyStr
  chunk_tokens : Nat
  embedding : List ℚ
deriving DecidableEq

/-- The `for i, (chunk, embedding) in enumerate(zip(chunks, embeddings))`
loop of `process_document_for_kb`: append a record exactly when
`embedding is not None`; `chunk_tokens` is `len(chunk.split())`. -/
def buildRecordsAux : Nat → List (PyStr × Option (List ℚ)) → List StoredChunkRecord
  | _, [] => []
  | i, (c, some emb) :: rest =>
    ⟨i, c, (pyWords c).length, emb⟩ :: buildRecordsAux (i + 1) rest
  | i, (_, none) :: rest => buildRecordsAux (i + 1) rest

/-- The chunk records `process_document_for_kb` persists for given chunks
and embeddings. -/
def build_chunk_records (chunks : List PyStr) (embeddings : List (Option (List ℚ))) :
    List StoredChunkRecord :=
  buildRecordsAux 0 (chunks.zip embeddings)

/-- The batch-encode model used in the C8 counterexample: it raises
(returns `none`) whenever the preprocessed batch contains the text
`"bad"`, and otherwise embeds every text as `[1]`. -/
def c8Encode (batch : List PyStr) : Option (List (List ℚ)) :=
  if ("bad".toList) ∈ batch then none else some (batch.map (fun _ => [1]))

/- ### C6: `DocumentProcessor._clean_text`
(`backend/knowledge_base/document_processor.py`, lines 370-392) -/

/-- The substring test `'\n\n\n' in cleaned_text` guarding the
newline-collapsing loop. -/
def containsTripleNl : PyStr → Bool
  | c1 :: c2 :: c3 :: rest =>
    (c1 == '\n' && c2 == '\n' && c3 == '\n') || containsTripleNl (c2 :: c3 :: rest)
  | _ => false

/-- Python's `s.replace('\n\n\n', '\n\n')`: replace every non-overlapping
occurrence, scanning left to right. -/
def replaceTripleNl : PyStr → PyStr
  | '\n' :: '\n' :: '\n' :: rest => '\n' :: '\n' :: replaceTripleNl rest
  | c :: rest => c :: replaceTripleNl rest
  | [] => []

/-- The `while '\n\n\n' in cleaned_text:` loop, with fuel.  Every pass
shortens the string, so `s.length` passes always reach the exit
condition; the fuel is never exhausted with the guard still true. -/
def collapseNlLoop : Nat → PyStr → PyStr
  | 0, s => s
  | fuel + 1, s =>
    if containsTripleNl s then collapseNlLoop fuel (replaceTripleNl s) else s

/-- The `cleaned_lines` list of `_clean_text`: per input line, collapse
whitespace runs with `' '.join(line.split())` and keep the result when its
`strip()` is non-empty. -/
def cleanLines (text : PyStr) : List PyStr :=
  ((splitOnNl text).map (fun l => joinWith [' '] (pyWords l))).filter
    (fun cl => pyStrip cl ≠ [])

/-- `DocumentProcessor._clean_text`: empty text short-circuits to `""`;
otherwise clean each line, rejoin with `'\n'`, collapse runs of 3+
newlines down to 2, and strip. -/
def clean_text (text : PyStr) : PyStr :=
  if text = [] then []
  else pyStrip (collapseNlLoop (joinWith ['\n'] (cleanLines text)).length
    (joinWith ['\n'] (cleanLines text)))

/-- No two consecutive newlines — the shape of `_clean_text`'s rejoined
line list, under which both the collapse loop and a final strip are
no-ops. -/
def noDoubleNl : PyStr → Bool
  | c1 :: c2 :: rest => !(c1 == '\n' && c2 == '\n') && noDoubleNl (c2 :: rest)
  | _ => true

/- ### Specification material for `_chunk_text` (C5/C9) -/

/-- The words of the original sequence from index `s` (inclusive) to `e`
(exclusive). -/
def wordSlice (words : List PyStr) (s e : Nat) : List PyStr :=
  (words.drop s).take (e - s)

/-- The word list of an emitted chunk, recovered from its text. -/
def chunkWords (c : TextChunk) : List PyStr := pyWords c.text

/-- An emitted chunk record `c` describes exactly the words
`[s0, s0 + wc)` of the original word sequence. -/
def ChunkIs (words : List PyStr) (c : TextChunk) (s0 wc : Nat) : Prop :=
  c.text = joinWith [' '] (wordSlice words s0 (s0 + wc)) ∧
  c.size = c.text.length ∧
  c.word_count = wc ∧
  c.start_word = (s0 : Int) ∧
  c.end_word = (s0 : Int) + wc - 1 ∧
  0 < wc ∧ s0 + wc ≤ words.length

/-- `ChainFrom words ovN s0 lb cs sP lbP`: the chunk records `cs` tile the
word sequence starting at `s0`, each chunk re-seeded with the last
`min ovN wc` words of its predecessor; the first chunk has at least `lb`
words; `sP` is the start index of the pending (next) span and `lbP` the
minimum word count any further chunk must have. -/
def ChainFrom (words : List PyStr) (ovN : Nat) :
    Nat → Nat → List TextChunk → Nat → Nat → Prop
  | s0, lb, [], sP, lbP => sP = s0 ∧ lbP = lb
  | s0, lb, c :: cs, sP, lbP =>
    ∃ wc, lb ≤ wc ∧ ChunkIs words c s0 wc ∧
      ChainFrom words ovN (s0 + wc - min ovN wc) (min ovN wc + 1) cs sP lbP

/-- Reconstruction dropping, from each chunk after the first, its actual
overlap seed: the last `min ovN (predecessor word count)` words of the
predecessor. -/
def dropSeedAux (ovN : Nat) : TextChunk → List TextChunk → List PyStr
  | _, [] => []
  | prev, c :: cs =>
    ((chunkWords c).drop (min ovN prev.word_count)) ++ dropSeedAux ovN c cs

/-- Concatenate the first chunk's words with each later chunk's words
minus its overlap seed. -/
def dropSeedConcat (ovN : Nat) : List TextChunk → List PyStr
  | [] => []
  | c :: cs => chunkWords c ++ dropSeedAux ovN c cs

/-- Reconstruction as the claim literally reads it: drop the configured
`overlap` number of words from every chunk after the first. -/
def dropConfiguredConcat (ovN : Nat) : List TextChunk → List PyStr
  | [] => []
  | c :: cs => chunkWords c ++ (cs.map (fun d => (chunkWords d).drop ovN)).flatten

/-- The two-word input refuting the configured-overlap reading of the
reconstruction claim and the strict-monotonicity/exact-overlap metadata
claim, at `chunk_size = 5`, `overlap = 3`: its first word alone overflows
the chunk budget, so the overlap seed is the whole one-word first chunk. -/
def c5Input : PyStr := "abcdefgh x".toList

/- ### Theorems -/

/-- C1: the claim says `delete_document_chunks` removes exactly the entries
whose `source_metadata.original_filename` equals the target filename and
returns their count.  In fact, because the fetch projects to the `id`
column only, the filename filter never matches and the function removes
nothing, returning a count of 0, for every table and every valid tier. -/
theorem delete_document_chunks_deletes_nothing (table : List KBEntry)
    (account_id filename : String) (thread_id agent_id : Option String)
    (kb_type : String)
    (h : kb_type = "global" ∨ kb_type = "thread" ∨ kb_type = "agent") :
    delete_document_chunks table account_id filename kb_type thread_id agent_id
      = (table, some 0) := by
  have hvalid : (kb_type = "global" || kb_type = "thread" || kb_type = "agent") = true := by
    rcases h with h | h | h <;> simp [h]
  unfold delete_document_chunks
  rw [if_pos hvalid]
  have hfalse : ∀ row : SelectedIdRow,
      (selectedRowOriginalFilename row == some filename) = false := by
    intro row; rfl
  simp only [hfalse, List.filter_false, List.map_nil, List.length_nil, List.isEmpty_nil]
  split <;> simp

/-- Witness for C1's theorem: a concrete global-tier table holding one
file-upload chunk whose recorded original filename is exactly the filename
being deleted; the call still deletes nothing and reports 0. -/
theorem delete_document_chunks_deletes_nothing_witness :
    ("global" = "global" ∨ ("global" : String) = "thread" ∨ ("global" : String) = "agent") ∧
    delete_document_chunks [c1Entry] ("acct") ("doc.txt") ("global") none none
      = ([c1Entry], some 0) :=
  ⟨Or.inl rfl,
   delete_document_chunks_deletes_nothing [c1Entry]
     ("acct") ("doc.txt") none none ("global") (Or.inl rfl)⟩

/-- C2 counterexample: `text/html` is one of the nine MIME types the claim
says the upload endpoint accepts, yet `upload_document` rejects it as an
unsupported type. -/
theorem upload_validate_rejects_html :
    ("text/html" ∈ spec_supported_mime_types) ∧
    upload_validate ("text/html") 1 = some UploadReject.unsupportedType := by
  constructor
  · decide
  · decide

/-- C2 amended: the upload endpoint accepts a file exactly when its
declared MIME type is one of the six types in `allowed_types`
(`application/pdf`, `text/csv`, the docx type, `text/plain`,
`text/markdown`, `application/json`) and its size is within the 50 MiB
ceiling; any other declared type is rejected as unsupported before the
size check and before processing starts. -/
theorem upload_validate_characterization (ct : String) (size : Nat) :
    (upload_validate ct size = none ↔ (ct ∈ allowed_types ∧ size ≤ MAX_UPLOAD_SIZE)) ∧
    (upload_validate ct size = some UploadReject.unsupportedType ↔ ct ∉ allowed_types) := by
  unfold upload_validate
  by_cases hct : ct ∈ allowed_types
  · by_cases hsz : size ≤ MAX_UPLOAD_SIZE
    · simp [hct, hsz, Nat.not_lt.mpr hsz]
    · simp [hct, hsz, Nat.lt_of_not_le hsz]
  · simp [hct]

/-- `snapFind` only reports indices inside the scanned range
`(i - k, i]`. -/
theorem snapFind_some_bounds (content : PyStr) :
    ∀ (k : Nat) (i j : Int), snapFind content k i = some j → i - k < j ∧ j ≤ i := by
  intro k
  induction k with
  | zero => intro i j h; simp [snapFind] at h
  | succ n ih =>
    intro i j h
    rw [snapFind] at h
    by_cases hc : isSentenceEnd (pyCharAt content i) = true
    · rw [if_pos hc] at h
      cases h
      constructor
      · push_cast; omega
      · omega
    · rw [if_neg hc] at h
      obtain ⟨h1, h2⟩ := ih (i - 1) j h
      constructor
      · push_cast at h1 ⊢; omega
      · omega

/-- The `end` computed for a window starting at `start` never backs off by
more than 98 characters below `start + chunk_size`. -/
theorem chunkDocEnd_lower_bound (content : PyStr) (cs start : Int) :
    start + cs - 98 ≤ chunkDocEnd content cs start := by
  rw [chunkDocEnd]
  by_cases hlt : start + cs < (content.length : Int)
  · rw [if_pos hlt]
    rcases hfind : snapFind content (start + cs - 1 - max start (start + cs - 100)).toNat
        (start + cs - 1) with _ | i
    · dsimp only; omega
    · dsimp only
      have hb := snapFind_some_bounds content _ _ _ hfind
      by_cases hnn : 0 ≤ start + cs - 1 - max start (start + cs - 100)
      · rw [Int.toNat_of_nonneg hnn] at hb
        have hmax : start + cs - 100 ≤ max start (start + cs - 100) := le_max_right _ _
        omega
      · have hz : (start + cs - 1 - max start (start + cs - 100)).toNat = 0 := by omega
        rw [hz] at hfind
        simp [snapFind] at hfind
  · rw [if_neg hlt]; omega

/-- With `overlap + 99 ≤ chunk_size`, every iteration advances `start` by
at least one, so fuel exceeding the remaining distance suffices. -/
theorem chunkDocLoop_terminates (content : PyStr) (cs ov : Int) (hcs : ov + 99 ≤ cs) :
    ∀ (fuel : Nat) (start : Int) (acc : List PyStr),
      (content.length : Int) - start < fuel →
      (chunkDocLoop content cs ov fuel start acc).isSome := by
  intro fuel
  induction fuel with
  | zero =>
    intro start acc h
    rw [chunkDocLoop, if_pos (by omega)]
    simp
  | succ f ih =>
    intro start acc h
    rw [chunkDocLoop]
    by_cases hs : (content.length : Int) ≤ start
    · rw [if_pos hs]; simp
    · rw [if_neg hs]
      have hlb := chunkDocEnd_lower_bound content cs start
      by_cases hs2 : (content.length : Int) ≤ chunkDocNext content cs ov start
      · rw [if_pos hs2]; simp
      · rw [if_neg hs2]
        refine ih _ _ ?_
        rw [chunkDocNext] at hs2 ⊢
        push_cast at h ⊢
        omega

/-- Every iteration of `chunkDocLoop` started at `-3` on `c7Input` with
`chunk_size = 10`, `overlap = 5` returns to `start = -3`, so the loop
exhausts any amount of fuel. -/
theorem c7_loop_stuck : ∀ (fuel : Nat) (acc : List PyStr),
    chunkDocLoop c7Input 10 5 fuel (-3) acc = none := by
  have hlen : c7Input.length = 22 := by decide
  have hnext : chunkDocNext c7Input 10 5 (-3) = -3 := by decide
  have hemit : ∀ acc, chunkDocEmit c7Input 10 (-3) acc = acc := by
    intro acc
    rw [chunkDocEmit]
    rw [if_pos (by decide)]
  intro fuel
  induction fuel with
  | zero =>
    intro acc
    rw [chunkDocLoop, if_neg (by rw [hlen]; norm_num)]
  | succ f ih =>
    intro acc
    rw [chunkDocLoop, if_neg (by rw [hlen]; norm_num), hnext,
      if_neg (by rw [hlen]; norm_num), hemit]
    exact ih acc

/-- C7 counterexample: the claim asserts termination for every
configuration with `overlap ≤ chunkSize / 2`, but with `chunkSize = 10`,
`overlap = 5` (which satisfies `5 ≤ 10 / 2`) the loop never terminates on
the 22-character input `c7Input`: no amount of fuel completes it. -/
theorem chunk_document_not_terminating :
    ((5 : Int) ≤ 10 / 2) ∧ ∀ fuel : Nat, chunk_document c7Input 10 5 fuel = none := by
  have hlen : c7Input.length = 22 := by decide
  refine ⟨by norm_num, ?_⟩
  intro fuel
  rw [chunk_document, if_neg (by rw [hlen]; norm_num)]
  cases fuel with
  | zero => rw [chunkDocLoop, if_neg (by rw [hlen]; norm_num)]
  | succ f =>
    have hnext : chunkDocNext c7Input 10 5 0 = -3 := by decide
    rw [chunkDocLoop, if_neg (by rw [hlen]; norm_num), hnext,
      if_neg (by rw [hlen]; norm_num)]
    exact c7_loop_stuck f _

/-- C7 amended: the character-window chunking loop terminates on every
content whenever `overlap + 99 ≤ chunkSize` (the default configuration
`chunkSize = 1000`, `overlap = 200` satisfies this); fuel of one more than
the content length always completes it.  The recommended
`overlap ≤ chunkSize / 2` alone does not guarantee termination. -/
theorem chunk_document_terminates (content : PyStr) (cs ov : Int)
    (h : ov + 99 ≤ cs) :
    (chunk_document content cs ov (content.length + 1)).isSome := by
  rw [chunk_document]
  by_cases hlen : (content.length : Int) ≤ cs
  · rw [if_pos hlen]; simp
  · rw [if_neg hlen]
    exact chunkDocLoop_terminates content cs ov h _ 0 [] (by push_cast; omega)

/-- Witness for the amended C7 theorem at the concrete configuration
`chunkSize = 99`, `overlap = 0` on the content `"hi"`. -/
theorem chunk_document_terminates_witness :
    ((0 : Int) + 99 ≤ 99) ∧ (chunk_document ("hi".toList) 99 0 (("hi".toList).length + 1)).isSome :=
  ⟨by norm_num, chunk_document_terminates ("hi".toList) 99 0 (by norm_num)⟩

/-- C10 counterexample: on empty input with the default configuration the
character-window chunker returns one chunk holding the empty string, not
an empty chunk sequence. -/
theorem chunk_document_empty_singleton :
    chunk_document [] 1000 200 0 = some [([] : PyStr)] ∧
      some [([] : PyStr)] ≠ some ([] : List PyStr) := by
  constructor
  · rfl
  · simp

/-- C10 amended: the word-based chunker `_chunk_text` returns zero chunks
on empty text for every configuration, while the character-window chunker
`chunk_document` returns the whole content as one chunk whenever the
content fits in a single window — in particular a single chunk holding the
empty string on empty input. -/
theorem empty_text_chunking (cs ov : Int) (fuel : Nat) (content : PyStr)
    (h : (content.length : Int) ≤ cs) :
    chunk_text cs ov [] = [] ∧ chunk_document content cs ov fuel = some [content] := by
  constructor
  · rw [chunk_text]; simp
  · rw [chunk_document, if_pos h]

/-- Witness for the amended C10 theorem: the default configuration on the
empty string. -/
theorem empty_text_chunking_witness :
    ((([] : PyStr).length : Int) ≤ 1000) ∧
      (chunk_text 1000 200 [] = [] ∧ chunk_document [] 1000 200 0 = some [([] : PyStr)]) :=
  ⟨by norm_num, empty_text_chunking 1000 200 0 [] (by norm_num)⟩

/-- C3: for every scoring function, query embedding, candidate set,
threshold and result cap, `search_knowledge_base` returns at most
`max_results` entries, its scores are non-increasing, and every returned
entry scores its own non-null, non-empty embedding against the query with
a score no smaller than the threshold. -/
theorem search_knowledge_base_spec (sim : List ℚ → List ℚ → ℚ)
    (query_embedding : Option (List ℚ)) (rows : List ChunkRow)
    (thr : ℚ) (max_results : Nat) :
    (search_knowledge_base sim query_embedding rows thr max_results).length ≤ max_results ∧
    ((search_knowledge_base sim query_embedding rows thr max_results).map Prod.snd).Sorted
      (fun a b => b ≤ a) ∧
    ∀ p ∈ search_knowledge_base sim query_embedding rows thr max_results,
      thr ≤ p.2 ∧ ∃ q e, query_embedding = some q ∧ p.1.embedding = some e ∧
        e ≠ [] ∧ p.2 = sim q e := by
  rcases query_embedding with _ | q
  · simp [search_knowledge_base, List.Sorted]
  · rw [search_knowledge_base]
    by_cases hq : q = []
    · simp [hq, List.Sorted]
    · rw [if_neg hq]
      have hsorted := @List.sorted_mergeSort (ChunkRow × ℚ)
        (fun a b => decide (b.2 ≤ a.2))
        (fun a b c hab hbc => by
          simp only [decide_eq_true_eq] at *
          exact le_trans hbc hab)
        (fun a b => by
          rcases le_total a.2 b.2 with h | h <;> simp [h])
        (searchFilter sim q thr rows)
      refine ⟨?_, ?_, ?_⟩
      · rw [List.length_take]
        exact min_le_left _ _
      · rw [List.Sorted, List.pairwise_map]
        refine List.Pairwise.imp ?_ (List.Pairwise.sublist (List.take_sublist _ _) hsorted)
        intro a b h
        exact of_decide_eq_true h
      · intro p hp
        have hp2 : p ∈ (searchFilter sim q thr rows).mergeSort
            (fun a b => decide (b.2 ≤ a.2)) :=
          List.Sublist.mem hp (List.take_sublist _ _)
        have hp3 : p ∈ searchFilter sim q thr rows := List.mem_mergeSort.mp hp2
        rw [searchFilter] at hp3
        obtain ⟨r, _hr, heq⟩ := List.mem_filterMap.mp hp3
        rcases he : r.embedding with _ | e
        · rw [he] at heq; simp at heq
        · rw [he] at heq
          by_cases he2 : e = []
          · simp [he2] at heq
          · by_cases hthr : thr ≤ sim q e
            · simp only [he2, hthr, if_pos, ne_eq, not_false_iff, if_true] at heq
              rcases heq with rfl | h
              · exact ⟨hthr, q, e, rfl, he, he2, rfl⟩
            · simp [he2, hthr] at heq

/-- C4 counterexample: a single candidate whose similarity (1/2) falls
below the relevance threshold (7/10): `is_query_relevant` returns
`(false, 0)`, so the reported score is 0, not the best similarity 1/2
found among the candidates as the claim requires. -/
theorem is_query_relevant_not_best_score :
    is_query_relevant c4Sim (some [1]) c4Rows (7 / 10) = (false, 0) ∧
    c4Sim [1] [1] = 1 / 2 ∧ ¬ ((7 : ℚ) / 10 ≤ 1 / 2) ∧ ((0 : ℚ) ≠ 1 / 2) := by
  have hfil : searchFilter c4Sim [1] (7 / 10) c4Rows = [] := by
    norm_num [searchFilter, c4Rows, c4Sim]
  refine ⟨?_, rfl, by norm_num, by norm_num⟩
  rw [is_query_relevant, search_knowledge_base]
  rw [if_neg (by decide), hfil, List.mergeSort_nil]
  rfl

/-- C4 amended: when every candidate's embedding scores strictly below the
relevance threshold, the gating search returns nothing and
`is_query_relevant` returns `(false, 0)` — the score component is the
constant 0.0, not the best similarity found. -/
theorem is_query_relevant_below_threshold (sim : List ℚ → List ℚ → ℚ)
    (q : List ℚ) (rows : List ChunkRow) (thr : ℚ)
    (h : ∀ r ∈ rows, ∀ e, r.embedding = some e → sim q e < thr) :
    is_query_relevant sim (some q) rows thr = (false, 0) := by
  have hfil : searchFilter sim q thr rows = [] := by
    rw [searchFilter, List.filterMap_eq_nil_iff]
    intro r hr
    rcases he : r.embedding with _ | e
    · simp only [he]
    · have hlt := h r hr e he
      by_cases he2 : e = []
      · simp [he, he2]
      · simp [he, he2, not_le.mpr hlt]
  rw [is_query_relevant, search_knowledge_base]
  by_cases hq : q = []
  · simp [hq]
  · rw [if_neg hq, hfil, List.mergeSort_nil]
    rfl

/-- Witness for the amended C4 theorem: the concrete candidate set and
threshold of the counterexample satisfy its hypothesis. -/
theorem is_query_relevant_below_threshold_witness :
    (∀ r ∈ c4Rows, ∀ e, r.embedding = some e → c4Sim [1] e < 7 / 10) ∧
    is_query_relevant c4Sim (some [1]) c4Rows (7 / 10) = (false, 0) := by
  have h : ∀ r ∈ c4Rows, ∀ e, r.embedding = some e → c4Sim [1] e < 7 / 10 := by
    intro r hr e _he
    rw [c4Sim]
    norm_num
  exact ⟨h, is_query_relevant_below_threshold c4Sim [1] c4Rows (7 / 10) h⟩

/-- C8 counterexample: with a model that raises when the batch contains
`"bad"`, embedding the batch `["good", "bad"]` nulls BOTH positions, even
though `"good"` on its own embeds fine — contradicting the claim that a
failing item leaves every other item's vector in place. -/
theorem generate_chunk_embeddings_nulls_whole_batch :
    generate_chunk_embeddings c8Encode [("good".toList), ("bad".toList)]
        = [none, none] ∧
    generate_chunk_embeddings c8Encode [("good".toList)] = [some [1]] ∧
    ([none, none] : List (Option (List ℚ))) ≠ [some [1], none] := by
  refine ⟨by decide, by decide, by decide⟩

/-- Each record the enumerate loop builds comes from a position of the
zipped input whose embedding is non-null, and carries that position (plus
the running offset) as its index. -/
theorem buildRecordsAux_mem : ∀ (pairs : List (PyStr × Option (List ℚ))) (i0 : Nat)
    (r : StoredChunkRecord), r ∈ buildRecordsAux i0 pairs →
    ∃ j, pairs.get? j = some (r.chunk_text, some r.embedding) ∧
      r.chunk_index = i0 + j ∧ r.chunk_tokens = (pyWords r.chunk_text).length := by
  intro pairs
  induction pairs with
  | nil => intro i0 r h; simp [buildRecordsAux] at h
  | cons p rest ih =>
    intro i0 r h
    rcases p with ⟨c, _ | emb⟩
    · rw [buildRecordsAux] at h
      obtain ⟨j, h1, h2, h3⟩ := ih (i0 + 1) r h
      exact ⟨j + 1, by simpa using h1, by omega, h3⟩
    · rw [buildRecordsAux] at h
      rcases List.mem_cons.mp h with heq | hmem
      · subst heq
        exact ⟨0, by simp, rfl, rfl⟩
      · obtain ⟨j, h1, h2, h3⟩ := ih (i0 + 1) r hmem
        exact ⟨j + 1, by simpa using h1, by omega, h3⟩

/-- Every position of the zipped input with a non-null embedding yields a
record. -/
theorem buildRecordsAux_complete : ∀ (pairs : List (PyStr × Option (List ℚ)))
    (i0 j : Nat) (c : PyStr) (emb : List ℚ), pairs.get? j = some (c, some emb) →
    (⟨i0 + j, c, (pyWords c).length, emb⟩ : StoredChunkRecord) ∈ buildRecordsAux i0 pairs := by
  intro pairs
  induction pairs with
  | nil => intro i0 j c emb h; simp at h
  | cons p rest ih =>
    intro i0 j c emb h
    rcases p with ⟨pc, _ | pemb⟩
    · cases j with
      | zero => simp at h
      | succ j' =>
        simp only [List.get?_cons_succ] at h
        rw [buildRecordsAux]
        have h2 := ih (i0 + 1) j' c emb h
        have harith : i0 + 1 + j' = i0 + (j' + 1) := by omega
        rwa [harith] at h2
    · cases j with
      | zero =>
        simp only [List.get?_cons_zero, Option.some_inj, Prod.mk.injEq,
          Option.some.injEq] at h
        obtain ⟨rfl, rfl⟩ := h
        rw [buildRecordsAux]
        exact List.mem_cons.mpr (Or.inl rfl)
      | succ j' =>
        simp only [List.get?_cons_succ] at h
        rw [buildRecordsAux]
        refine List.mem_cons.mpr (Or.inr ?_)
        have h2 := ih (i0 + 1) j' c emb h
        have harith : i0 + 1 + j' = i0 + (j' + 1) := by omega
        rwa [harith] at h2

/-- C8 amended: `generate_chunk_embeddings` always returns exactly one
entry per input chunk (whenever the model returns one vector per input on
success), but when the single batch `encode` call raises, EVERY position
is null — an individual failure nulls the whole batch rather than only its
own item.  The persisting caller `process_document_for_kb` stores records
for exactly the non-null positions, keeping each chunk's text, index and
token count. -/
theorem generate_chunk_embeddings_spec (encode : List PyStr → Option (List (List ℚ)))
    (chunks : List PyStr)
    (henc : ∀ batch embs, encode batch = some embs → embs.length = batch.length) :
    (generate_chunk_embeddings encode chunks).length = chunks.length ∧
    (encode (chunks.map preprocess_text) = none →
      generate_chunk_embeddings encode chunks = List.replicate chunks.length none) ∧
    (∀ embeddings : List (Option (List ℚ)),
      (∀ r ∈ build_chunk_records chunks embeddings,
        chunks.get? r.chunk_index = some r.chunk_text ∧
        embeddings.get? r.chunk_index = some (some r.embedding) ∧
        r.chunk_tokens = (pyWords r.chunk_text).length) ∧
      (∀ j c emb, chunks.get? j = some c → embeddings.get? j = some (some emb) →
        (⟨j, c, (pyWords c).length, emb⟩ : StoredChunkRecord)
          ∈ build_chunk_records chunks embeddings)) := by
  refine ⟨?_, ?_, ?_⟩
  · rw [generate_chunk_embeddings]
    rcases hE : encode (chunks.map preprocess_text) with _ | embs
    · simp
    · have := henc _ _ hE
      simp [this]
  · intro hE
    rw [generate_chunk_embeddings, hE]
  · intro embeddings
    constructor
    · intro r hr
      rw [build_chunk_records] at hr
      obtain ⟨j, h1, h2, h3⟩ := buildRecordsAux_mem _ 0 r hr
      rw [List.get?_eq_getElem?] at h1
      obtain ⟨hc, he⟩ := List.getElem?_zip_eq_some.mp h1
      rw [Nat.zero_add] at h2
      subst h2
      rw [List.get?_eq_getElem?, List.get?_eq_getElem?]
      exact ⟨hc, he, h3⟩
    · intro j c emb hc he
      rw [build_chunk_records]
      have hz : (chunks.zip embeddings).get? j = some (c, some emb) := by
        rw [List.get?_eq_getElem?]
        exact List.getElem?_zip_eq_some.mpr
          ⟨by rw [← List.get?_eq_getElem?]; exact hc,
           by rw [← List.get?_eq_getElem?]; exact he⟩
      have := buildRecordsAux_complete _ 0 j c emb hz
      simpa using this

/-- Witness for the amended C8 theorem: the counterexample's model
satisfies the one-vector-per-input hypothesis. -/
theorem generate_chunk_embeddings_spec_witness :
    (∀ batch embs, c8Encode batch = some embs → embs.length = batch.length) ∧
    (generate_chunk_embeddings c8Encode [("good".toList)]).length
      = [("good".toList)].length := by
  have henc : ∀ batch embs, c8Encode batch = some embs → embs.length = batch.length := by
    intro batch embs h
    rw [c8Encode] at h
    by_cases hm : ("bad".toList) ∈ batch
    · rw [if_pos hm] at h; exact absurd h (by simp)
    · rw [if_neg hm] at h
      obtain rfl := Option.some_inj.mp h.symm
      simp
  exact ⟨henc, (generate_chunk_embeddings_spec c8Encode [("good".toList)] henc).1⟩

/-- `splitEvery` never returns an empty list of pieces. -/
theorem splitEvery_ne_nil (p : Char → Bool) : ∀ s, splitEvery p s ≠ [] := by
  intro s
  induction s with
  | nil => simp [splitEvery]
  | cons c rest ih =>
    rw [splitEvery]
    by_cases hc : p c = true
    · rw [if_pos hc]; simp
    · rw [if_neg hc]
      cases hrec : splitEvery p rest with
      | nil => simp
      | cons piece pieces => simp

/-- Every piece of `splitEvery p s` contains only characters on which `p`
is false. -/
theorem splitEvery_pieces (p : Char → Bool) :
    ∀ s, ∀ w ∈ splitEvery p s, ∀ c ∈ w, p c = false := by
  intro s
  induction s with
  | nil =>
    intro w hw c hc
    simp only [splitEvery, List.mem_singleton] at hw
    subst hw
    simp at hc
  | cons d rest ih =>
    intro w hw c hc
    rw [splitEvery] at hw
    by_cases hd : p d = true
    · rw [if_pos hd] at hw
      rcases List.mem_cons.mp hw with rfl | hw2
      · simp at hc
      · exact ih w hw2 c hc
    · rw [if_neg hd] at hw
      cases hrec : splitEvery p rest with
      | nil => exact absurd hrec (splitEvery_ne_nil p rest)
      | cons piece pieces =>
        rw [hrec] at hw
        rcases List.mem_cons.mp hw with rfl | hw2
        · rcases List.mem_cons.mp hc with rfl | hc2
          · simpa using hd
          · exact ih piece (by rw [hrec]; exact List.mem_cons_self _ _) c hc2
        · exact ih w (by rw [hrec]; exact List.mem_cons_of_mem _ hw2) c hc

/-- A string free of `p`-characters splits into itself as the single
piece. -/
theorem splitEvery_pfree (p : Char → Bool) :
    ∀ x, (∀ c ∈ x, p c = false) → splitEvery p x = [x] := by
  intro x
  induction x with
  | nil => intro _; rfl
  | cons c rest ih =>
    intro h
    rw [splitEvery]
    have hc : ¬ p c = true := by simp [h c (List.mem_cons_self _ _)]
    rw [if_neg hc, ih (fun d hd => h d (List.mem_cons_of_mem _ hd))]

/-- Splitting `x ++ s` for `p`-free `x`: `x` is glued onto the first piece
of the split of `s`. -/
theorem splitEvery_append_pfree (p : Char → Bool) :
    ∀ x s h t, (∀ c ∈ x, p c = false) → splitEvery p s = h :: t →
      splitEvery p (x ++ s) = (x ++ h) :: t := by
  intro x
  induction x with
  | nil => intro s h t _ hs; simpa using hs
  | cons c rest ih =>
    intro s h t hx hs
    rw [List.cons_append, splitEvery]
    have hc : ¬ p c = true := by simp [hx c (List.mem_cons_self _ _)]
    rw [if_neg hc, ih s h t (fun d hd => hx d (List.mem_cons_of_mem _ hd)) hs]
    rfl

/-- Rejoining pieces with a separator and resplitting recovers the pieces,
when the pieces avoid the separator class and the separator is in it. -/
theorem splitEvery_joinWith (p : Char → Bool) (sep : Char) (hsep : p sep = true) :
    ∀ L, L ≠ [] → (∀ l ∈ L, ∀ c ∈ l, p c = false) →
      splitEvery p (joinWith [sep] L) = L := by
  intro L
  induction L with
  | nil => intro h; exact absurd rfl h
  | cons x t ih =>
    intro _ hL
    cases t with
    | nil =>
      rw [joinWith]
      exact splitEvery_pfree p x (hL x (List.mem_cons_self _ _))
    | cons y t2 =>
      rw [joinWith]
      have hrec : splitEvery p (joinWith [sep] (y :: t2)) = y :: t2 :=
        ih (by simp) (fun l hl => hL l (List.mem_cons_of_mem _ hl))
      have hsepsplit : splitEvery p (sep :: joinWith [sep] (y :: t2))
          = [] :: y :: t2 := by
        rw [splitEvery, if_pos hsep, hrec]
      have hres := splitEvery_append_pfree p x (sep :: joinWith [sep] (y :: t2))
        [] (y :: t2) (hL x (List.mem_cons_self _ _)) hsepsplit
      simpa [List.append_assoc] using hres

/-- Words produced by `pyWords` are non-empty and whitespace-free. -/
theorem pyWords_pieces (s : PyStr) :
    ∀ w ∈ pyWords s, w ≠ [] ∧ ∀ c ∈ w, pyIsSpace c = false := by
  intro w hw
  rw [pyWords] at hw
  have h1 := List.of_mem_filter hw
  have h2 := List.mem_of_mem_filter hw
  exact ⟨by simpa using h1, splitEvery_pieces pyIsSpace s w h2⟩

/-- `' '.join` then `split()` recovers any list of non-empty,
whitespace-free words. -/
theorem pyWords_joinWith :
    ∀ W : List PyStr, (∀ w ∈ W, w ≠ [] ∧ ∀ c ∈ w, pyIsSpace c = false) →
      pyWords (joinWith [' '] W) = W := by
  intro W hW
  cases W with
  | nil => rfl
  | cons x t =>
    rw [pyWords, splitEvery_joinWith pyIsSpace ' ' (by decide) (x :: t) (by simp)
      (fun l hl c hc => (hW l hl).2 c hc)]
    exact List.filter_eq_self.mpr (fun w hw => by simpa using (hW w hw).1)

/-- A join headed by a non-empty piece is non-empty. -/
theorem joinWith_ne_nil (sep : PyStr) (x : PyStr) (t : List PyStr) (hx : x ≠ []) :
    joinWith sep (x :: t) ≠ [] := by
  cases t with
  | nil => simpa [joinWith] using hx
  | cons y t2 =>
    rw [joinWith]
    exact List.append_ne_nil_of_left_ne_nil
      (List.append_ne_nil_of_left_ne_nil hx _) _

/-- The first character of a join is the first character of its first
piece. -/
theorem joinWith_head (sep : PyStr) (x : PyStr) (t : List PyStr) (hx : x ≠ []) :
    (joinWith sep (x :: t)).head? = x.head? := by
  cases t with
  | nil => rw [joinWith]
  | cons y t2 =>
    rw [joinWith,
      List.head?_append_of_ne_nil _ (List.append_ne_nil_of_left_ne_nil hx _),
      List.head?_append_of_ne_nil _ hx]

/-- The last character of a join of non-empty pieces is the last character
of one of the pieces. -/
theorem joinWith_getLast (sep : PyStr) :
    ∀ (t : List PyStr) (x : PyStr), (∀ l ∈ x :: t, l ≠ []) →
      ∃ l ∈ x :: t, (joinWith sep (x :: t)).getLast? = l.getLast? := by
  intro t
  induction t with
  | nil => intro x _; exact ⟨x, List.mem_cons_self _ _, by rw [joinWith]⟩
  | cons y t2 ih =>
    intro x h
    obtain ⟨l, hl, heq⟩ := ih y (fun l hl => h l (List.mem_cons_of_mem _ hl))
    refine ⟨l, List.mem_cons_of_mem _ hl, ?_⟩
    rw [joinWith,
      List.getLast?_append_of_ne_nil _ (joinWith_ne_nil sep y t2 (h y (by simp)))]
    exact heq

/-- Characters of a join are the separator or characters of the pieces. -/
theorem mem_joinWith (sep : Char) :
    ∀ (L : List PyStr) (c : Char), c ∈ joinWith [sep] L →
      c = sep ∨ ∃ l ∈ L, c ∈ l := by
  intro L
  induction L with
  | nil => intro c hc; simp [joinWith] at hc
  | cons x t ih =>
    intro c hc
    cases t with
    | nil =>
      rw [joinWith] at hc
      exact Or.inr ⟨x, by simp, hc⟩
    | cons y t2 =>
      rw [joinWith] at hc
      rcases List.mem_append.mp hc with h1 | h2
      · rcases List.mem_append.mp h1 with h3 | h4
        · exact Or.inr ⟨x, by simp, h3⟩
        · simp only [List.mem_singleton] at h4
          exact Or.inl h4
      · rcases ih c h2 with h | ⟨l, hl, hcl⟩
        · exact Or.inl h
        · exact Or.inr ⟨l, List.mem_cons_of_mem _ hl, hcl⟩

/-- A character reported by `head?` is in the list. -/
theorem mem_of_head?_eq (l : PyStr) (c : Char) (h : l.head? = some c) : c ∈ l := by
  cases l with
  | nil => simp at h
  | cons a rest =>
    simp only [List.head?_cons, Option.some_inj] at h
    subst h
    exact List.mem_cons_self _ _

/-- A character reported by `getLast?` is in the list. -/
theorem mem_of_getLast?_eq (l : PyStr) (c : Char) (h : l.getLast? = some c) :
    c ∈ l := by
  rw [← List.head?_reverse] at h
  exact List.mem_reverse.mp (mem_of_head?_eq _ _ h)

/-- `dropWhile` is the identity when the first character fails the
predicate. -/
theorem dropWhile_eq_self_of_head (p : Char → Bool) (s : PyStr)
    (h : ∀ c, s.head? = some c → p c = false) : s.dropWhile p = s := by
  cases s with
  | nil => rfl
  | cons c rest =>
    rw [List.dropWhile_cons, if_neg (by simp [h c rfl])]

/-- `strip()` is the identity on strings whose first and last characters
are not whitespace. -/
theorem pyStrip_eq_self (s : PyStr)
    (h1 : ∀ c, s.head? = some c → pyIsSpace c = false)
    (h2 : ∀ c, s.getLast? = some c → pyIsSpace c = false) : pyStrip s = s := by
  rw [pyStrip, dropWhile_eq_self_of_head _ _ h1,
    dropWhile_eq_self_of_head _ _
      (by intro c hc; rw [List.head?_reverse] at hc; exact h2 c hc),
    List.reverse_reverse]

/-- Prepending newline-free characters preserves `noDoubleNl`. -/
theorem noDoubleNl_append (w s : PyStr) (hw : ∀ c ∈ w, c ≠ '\n')
    (hs : noDoubleNl s = true) : noDoubleNl (w ++ s) = true := by
  induction w with
  | nil => simpa using hs
  | cons c w' ih =>
    rw [List.cons_append]
    have hc : c ≠ '\n' := hw c (List.mem_cons_self _ _)
    have ih2 := ih (fun d hd => hw d (List.mem_cons_of_mem _ hd))
    cases hws : w' ++ s with
    | nil => rfl
    | cons d rest =>
      rw [hws] at ih2
      rw [noDoubleNl]
      simp [hc, ih2]

/-- Joining non-empty newline-free lines with a single `'\n'` never puts
two newlines side by side. -/
theorem noDoubleNl_join :
    ∀ L : List PyStr, (∀ l ∈ L, l ≠ [] ∧ ∀ c ∈ l, c ≠ '\n') →
      noDoubleNl (joinWith ['\n'] L) = true := by
  intro L
  induction L with
  | nil => intro _; rfl
  | cons x t ih =>
    intro hL
    cases t with
    | nil =>
      rw [joinWith]
      have hres := noDoubleNl_append x [] ((hL x (by simp)).2) rfl
      simpa using hres
    | cons y t2 =>
      rw [joinWith, List.append_assoc]
      refine noDoubleNl_append x (['\n'] ++ joinWith ['\n'] (y :: t2))
        ((hL x (by simp)).2) ?_
      have hy : y ≠ [] := (hL y (by simp)).1
      have hjoin := ih (fun l hl => hL l (List.mem_cons_of_mem _ hl))
      have hne := joinWith_ne_nil ['\n'] y t2 hy
      cases hj : joinWith ['\n'] (y :: t2) with
      | nil => exact absurd hj hne
      | cons d0 rest0 =>
        have hh := joinWith_head ['\n'] y t2 hy
        rw [hj] at hh hjoin
        have hd0mem : d0 ∈ y := mem_of_head?_eq y d0 (by rw [← hh]; rfl)
        have hd0 : d0 ≠ '\n' := (hL y (by simp)).2 d0 hd0mem
        show noDoubleNl ('\n' :: d0 :: rest0) = true
        rw [noDoubleNl]
        simp [hd0, hjoin]

/-- Without two consecutive newlines there is no triple newline. -/
theorem containsTripleNl_eq_false :
    ∀ s, noDoubleNl s = true → containsTripleNl s = false := by
  intro s
  induction s with
  | nil => intro _; rfl
  | cons c1 rest ih =>
    intro h
    cases rest with
    | nil => rfl
    | cons c2 rest2 =>
      cases rest2 with
      | nil => rfl
      | cons c3 rest3 =>
        rw [containsTripleNl]
        rw [noDoubleNl] at h
        obtain ⟨hno, hrest⟩ := Bool.and_eq_true_iff.mp h
        rw [Bool.not_eq_true'] at hno
        rw [ih hrest]
        rcases Bool.and_eq_false_iff.mp hno with h1 | h1 <;> simp [h1]

/-- The newline-collapsing loop is the identity when no triple newline is
present, whatever the fuel. -/
theorem collapseNlLoop_eq_self (fuel : Nat) (s : PyStr)
    (h : containsTripleNl s = false) : collapseNlLoop fuel s = s := by
  cases fuel with
  | zero => rfl
  | succ f => rw [collapseNlLoop, if_neg (by simp [h])]

/-- Shape of each kept cleaned line: non-empty, newline-free, fixed by
another `' '.join(split())` pass, and bordered by non-whitespace. -/
theorem cleanLines_spec (text : PyStr) :
    ∀ cl ∈ cleanLines text, cl ≠ [] ∧ (∀ c ∈ cl, c ≠ '\n') ∧
      joinWith [' '] (pyWords cl) = cl ∧
      (∀ c, cl.head? = some c → pyIsSpace c = false) ∧
      (∀ c, cl.getLast? = some c → pyIsSpace c = false) := by
  intro cl hcl
  rw [cleanLines] at hcl
  have hstrip : pyStrip cl ≠ [] := by simpa using List.of_mem_filter hcl
  obtain ⟨l, _hl, hcl_eq⟩ := List.mem_map.mp (List.mem_of_mem_filter hcl)
  have hprops := pyWords_pieces l
  cases hWshape : pyWords l with
  | nil =>
    exfalso
    apply hstrip
    rw [← hcl_eq, hWshape]
    rfl
  | cons w1 Wt =>
    have hw1 := hprops w1 (by rw [hWshape]; exact List.mem_cons_self _ _)
    refine ⟨?_, ?_, ?_, ?_, ?_⟩
    · rw [← hcl_eq, hWshape]
      exact joinWith_ne_nil [' '] w1 Wt hw1.1
    · intro c hc
      rw [← hcl_eq] at hc
      rcases mem_joinWith ' ' (pyWords l) c hc with rfl | ⟨w, hwmem, hcw⟩
      · decide
      · have hsp := (hprops w hwmem).2 c hcw
        intro hceq
        subst hceq
        simp [pyIsSpace] at hsp
    · rw [← hcl_eq, pyWords_joinWith (pyWords l) hprops]
    · intro c hc
      rw [← hcl_eq, hWshape, joinWith_head [' '] w1 Wt hw1.1] at hc
      exact hw1.2 c (mem_of_head?_eq w1 c hc)
    · intro c hc
      rw [← hcl_eq, hWshape] at hc
      obtain ⟨w, hwmem, heq⟩ := joinWith_getLast [' '] Wt w1
        (fun l2 hl2 => (hprops l2 (by rw [hWshape]; exact hl2)).1)
      rw [heq] at hc
      exact (hprops w (by rw [hWshape]; exact hwmem)).2 c (mem_of_getLast?_eq w c hc)

/-- On non-empty input, `_clean_text` is exactly the newline-join of its
kept cleaned lines: the collapse loop and the final strip are no-ops. -/
theorem clean_text_eq_join (text : PyStr) (h : text ≠ []) :
    clean_text text = joinWith ['\n'] (cleanLines text) := by
  rw [clean_text, if_neg h]
  have hspec := cleanLines_spec text
  have hnn : noDoubleNl (joinWith ['\n'] (cleanLines text)) = true :=
    noDoubleNl_join (cleanLines text) (fun l hl => ⟨(hspec l hl).1, (hspec l hl).2.1⟩)
  rw [collapseNlLoop_eq_self _ _ (containsTripleNl_eq_false _ hnn)]
  cases hCL : cleanLines text with
  | nil => rfl
  | cons cl1 CLt =>
    have hspec2 : ∀ cl ∈ cl1 :: CLt, cl ≠ [] ∧ (∀ c ∈ cl, c ≠ '\n') ∧
        joinWith [' '] (pyWords cl) = cl ∧
        (∀ c, cl.head? = some c → pyIsSpace c = false) ∧
        (∀ c, cl.getLast? = some c → pyIsSpace c = false) := by
      rw [← hCL]; exact hspec
    have hcl1 := hspec2 cl1 (List.mem_cons_self _ _)
    apply pyStrip_eq_self
    · intro c hc
      rw [joinWith_head ['\n'] cl1 CLt hcl1.1] at hc
      exact hcl1.2.2.2.1 c hc
    · intro c hc
      obtain ⟨l2, hl2, heq⟩ := joinWith_getLast ['\n'] CLt cl1
        (fun l2 hl2 => (hspec2 l2 hl2).1)
      rw [heq] at hc
      exact (hspec2 l2 hl2).2.2.2.2 c hc

/-- C6: `_clean_text` is idempotent — cleaning already-cleaned text is a
no-op, for every input string. -/
theorem clean_text_idempotent (text : PyStr) :
    clean_text (clean_text text) = clean_text text := by
  by_cases h : text = []
  · subst h; rfl
  · rw [clean_text_eq_join text h]
    cases hCL : cleanLines text with
    | nil => rfl
    | cons cl1 CLt =>
      have hspec2 : ∀ cl ∈ cl1 :: CLt, cl ≠ [] ∧ (∀ c ∈ cl, c ≠ '\n') ∧
          joinWith [' '] (pyWords cl) = cl ∧
          (∀ c, cl.head? = some c → pyIsSpace c = false) ∧
          (∀ c, cl.getLast? = some c → pyIsSpace c = false) := by
        rw [← hCL]; exact cleanLines_spec text
      have hcl1 := hspec2 cl1 (List.mem_cons_self _ _)
      have hne : joinWith ['\n'] (cl1 :: CLt) ≠ [] :=
        joinWith_ne_nil _ _ _ hcl1.1
      rw [clean_text_eq_join _ hne]
      congr 1
      rw [cleanLines]
      have hsplit : splitOnNl (joinWith ['\n'] (cl1 :: CLt)) = cl1 :: CLt := by
        rw [splitOnNl]
        refine splitEvery_joinWith _ '\n' (by decide) _ (by simp) ?_
        intro l hl c hcl
        simpa using (hspec2 l hl).2.1 c hcl
      rw [hsplit]
      have hmapfun : ∀ a ∈ cl1 :: CLt,
          joinWith [' '] (pyWords a) = id a :=
        fun a ha => (hspec2 a ha).2.2.1
      rw [List.map_congr_left hmapfun, List.map_id]
      refine List.filter_eq_self.mpr ?_
      intro cl hcl
      have hc := hspec2 cl hcl
      have hstripid : pyStrip cl = cl := pyStrip_eq_self cl hc.2.2.2.1 hc.2.2.2.2
      simp [hstripid, hc.1]

/-- Length of a word slice inside the sequence. -/
theorem wordSlice_length (words : List PyStr) (s e : Nat) (he : e ≤ words.length) :
    (wordSlice words s e).length = e - s := by
  rw [wordSlice, List.length_take, List.length_drop]
  omega

/-- Taking `k` words of a slice shortens it on the right. -/
theorem wordSlice_take (words : List PyStr) (s e k : Nat) (h : s + k ≤ e) :
    (wordSlice words s e).take k = wordSlice words s (s + k) := by
  rw [wordSlice, wordSlice, List.take_take]
  congr 1
  omega

/-- Dropping `k` words of a slice advances it on the left. -/
theorem wordSlice_drop (words : List PyStr) (s e k : Nat) :
    (wordSlice words s e).drop k = wordSlice words (s + k) e := by
  rw [wordSlice, wordSlice, List.drop_take, List.drop_drop]
  congr 1
  omega

/-- Adjacent slices concatenate. -/
theorem wordSlice_append (words : List PyStr) (a b c : Nat)
    (h1 : a ≤ b) (h2 : b ≤ c) :
    wordSlice words a b ++ wordSlice words b c = wordSlice words a c := by
  rw [wordSlice, wordSlice, wordSlice]
  have hb : words.drop b = (words.drop a).drop (b - a) := by
    rw [List.drop_drop]
    congr 1
    omega
  rw [hb, ← List.take_add]
  congr 1
  omega

/-- Extending a slice by the next word of the sequence. -/
theorem wordSlice_snoc (words : List PyStr) (s i : Nat) (w : PyStr)
    (h1 : s ≤ i) (hw : words[i]? = some w) :
    wordSlice words s i ++ [w] = wordSlice words s (i + 1) := by
  rw [wordSlice, wordSlice, show i + 1 - s = (i - s) + 1 by omega, List.take_succ,
    List.getElem?_drop, show s + (i - s) = i by omega, hw]
  rfl

/-- Members of a slice are members of the sequence. -/
theorem mem_wordSlice (words : List PyStr) (s e : Nat) (w : PyStr)
    (h : w ∈ wordSlice words s e) : w ∈ words :=
  List.mem_of_mem_drop (List.mem_of_mem_take h)

/-- Appending one more chunk to a chain. -/
theorem chainFrom_append (words : List PyStr) (ovN : Nat) :
    ∀ (acc : List TextChunk) (s0 lb0 sMid lbMid wc : Nat) (c : TextChunk),
      ChainFrom words ovN s0 lb0 acc sMid lbMid → lbMid ≤ wc →
      ChunkIs words c sMid wc →
      ChainFrom words ovN s0 lb0 (acc ++ [c])
        (sMid + wc - min ovN wc) (min ovN wc + 1) := by
  intro acc
  induction acc with
  | nil =>
    intro s0 lb0 sMid lbMid wc c hch hlb hc
    obtain ⟨rfl, rfl⟩ := hch
    exact ⟨wc, hlb, hc, rfl, rfl⟩
  | cons a acc' ih =>
    intro s0 lb0 sMid lbMid wc c hch hlb hc
    obtain ⟨wa, hwa, ha, hrest⟩ := hch
    exact ⟨wa, hwa, ha, ih _ _ _ _ _ _ hrest hlb hc⟩

/-- A non-empty chain only moves the pending end forward. -/
theorem chainFrom_le (words : List PyStr) (ovN : Nat) :
    ∀ (cs : List TextChunk) (s0 lb sP lbP : Nat),
      ChainFrom words ovN s0 lb cs sP lbP → cs ≠ [] →
      s0 + lb - 1 ≤ sP + lbP - 1 ∧ 1 ≤ lbP := by
  intro cs
  induction cs with
  | nil => intro s0 lb sP lbP _ hne; exact absurd rfl hne
  | cons c cs' ih =>
    intro s0 lb sP lbP hch _
    obtain ⟨wc, hwc, _hc, hrest⟩ := hch
    cases hcs' : cs' with
    | nil =>
      rw [hcs'] at hrest
      obtain ⟨rfl, rfl⟩ := hrest
      constructor
      · have hm : min ovN wc ≤ wc := min_le_right _ _
        omega
      · omega
    | cons d cs'' =>
      have hres := ih _ _ _ _ hrest (by simp [hcs'])
      have hm : min ovN wc ≤ wc := min_le_right _ _
      constructor
      · omega
      · exact hres.2

/-- The word list of a chunk described by `ChunkIs` is the corresponding
slice of the original word sequence (the chunk's text splits back into
exactly those words). -/
theorem chunkWords_of_chunkIs (words : List PyStr)
    (hw : ∀ w ∈ words, w ≠ [] ∧ ∀ ch ∈ w, pyIsSpace ch = false)
    (c : TextChunk) (s0 wc : Nat) (hc : ChunkIs words c s0 wc) :
    chunkWords c = wordSlice words s0 (s0 + wc) := by
  rw [chunkWords, hc.1, pyWords_joinWith]
  intro w hwmem
  exact hw w (mem_wordSlice words s0 (s0 + wc) w hwmem)

/-- Master invariant of `_chunk_text`'s word loop: starting from a running
chunk spanning `[s, i)` of the word sequence with `acc` chained before it,
the loop ends with a running chunk spanning `[sF, len)` and a chain of all
emitted chunks whose pending span starts at `sF`. -/
theorem chunkTextLoop_invariant (csz ov : Int) (words : List PyStr) :
    ∀ (rest : List PyStr) (i s : Nat) (current : List PyStr) (size : Nat)
      (acc : List TextChunk) (pendLB : Nat),
      rest = words.drop i →
      i ≤ words.length →
      s ≤ i →
      current = wordSlice words s i →
      pendLB ≤ current.length →
      (s = 0 ∨ s < words.length) →
      ChainFrom words ov.toNat 0 0 acc s pendLB →
      ∃ sF pendF,
        sF ≤ words.length ∧ (sF = 0 ∨ sF < words.length) ∧
        (chunkTextLoop csz ov rest i current size acc).1
          = wordSlice words sF words.length ∧
        pendF ≤ (chunkTextLoop csz ov rest i current size acc).1.length ∧
        ChainFrom words ov.toNat 0 0 (chunkTextLoop csz ov rest i current size acc).2
          sF pendF := by
  intro rest
  induction rest with
  | nil =>
    intro i s current size acc pendLB hrest hi hs hcur hplb hs0 hchain
    have hieq : i = words.length := by
      have hlen := congrArg List.length hrest
      simp only [List.length_nil, List.length_drop] at hlen
      omega
    exact ⟨s, pendLB, by omega, hs0, by rw [chunkTextLoop, hcur, hieq],
      by rw [chunkTextLoop]; exact hplb, by rw [chunkTextLoop]; exact hchain⟩
  | cons w ws ih =>
    intro i s current size acc pendLB hrest hi hs hcur hplb hs0 hchain
    have hlt : i < words.length := by
      rcases Nat.lt_or_ge i words.length with h | h
      · exact h
      · exfalso
        rw [List.drop_eq_nil_of_le h] at hrest
        exact absurd hrest (by simp)
    rw [List.drop_eq_getElem_cons hlt] at hrest
    injection hrest with hw hws
    rw [chunkTextLoop]
    by_cases hcond : ((size : Int) + wordSize w > csz ∧ current ≠ [])
    · rw [if_pos hcond]
      have hcurlen : current.length = i - s := by
        rw [hcur]; exact wordSlice_length words s i (le_of_lt hlt)
      have hplen : 0 < i - s := by
        rcases Nat.eq_zero_or_pos (i - s) with h0 | h
        · exact absurd (List.length_eq_zero.mp (by omega)) hcond.2
        · exact h
      have hmle : min ov.toNat (i - s) ≤ i - s := min_le_right _ _
      have hchunk : ChunkIs words (emitChunk i current) s (i - s) := by
        refine ⟨?_, rfl, ?_, ?_, ?_, hplen, by omega⟩
        · show joinWith [' '] current
            = joinWith [' '] (wordSlice words s (s + (i - s)))
          rw [hcur, show s + (i - s) = i by omega]
        · show current.length = i - s
          exact hcurlen
        · show (i : Int) - current.length = (s : Int)
          rw [hcurlen]; omega
        · show (i : Int) - 1 = (s : Int) + ((i - s : Nat) : Int) - 1
          omega
      have hseed : seedWords ov current
          = wordSlice words (s + (i - s) - min ov.toNat (i - s)) i := by
        rw [seedWords]
        by_cases hovpos : 0 < ov
        · rw [if_pos hovpos, pyTakeLast, hcurlen, hcur, wordSlice_drop]
          congr 1
          rcases Nat.le_total ov.toNat (i - s) with hmm | hmm
          · rw [min_eq_left hmm]; omega
          · rw [min_eq_right hmm]; omega
        · rw [if_neg hovpos]
          have hovz : ov.toNat = 0 := by omega
          rw [hovz, Nat.min_comm, Nat.min_zero, Nat.sub_zero,
            show s + (i - s) = i by omega]
          rw [wordSlice, Nat.sub_self, List.take_zero]
      have hnewcur : seedWords ov current ++ [w]
          = wordSlice words (s + (i - s) - min ov.toNat (i - s)) (i + 1) := by
        rw [hseed]
        exact wordSlice_snoc words _ i w (by omega)
          (by rw [hw]; exact List.getElem?_eq_getElem hlt)
      have hseedlen : (seedWords ov current).length = min ov.toNat (i - s) := by
        rw [hseed, wordSlice_length words _ i (le_of_lt hlt)]
        omega
      have hchain2 := chainFrom_append words ov.toNat acc 0 0 s pendLB (i - s)
        (emitChunk i current) hchain (by omega) hchunk
      exact ih (i + 1) (s + (i - s) - min ov.toNat (i - s))
        (seedWords ov current ++ [w]) _ (acc ++ [emitChunk i current])
        (min ov.toNat (i - s) + 1) hws (by omega) (by omega) hnewcur
        (by rw [List.length_append, hseedlen]; simp)
        (Or.inr (by omega)) hchain2
    · rw [if_neg hcond]
      exact ih (i + 1) s (current ++ [w]) _ acc pendLB hws (by omega) (by omega)
        (by rw [hcur]
            exact wordSlice_snoc words s i w hs
              (by rw [hw]; exact List.getElem?_eq_getElem hlt))
        (by rw [List.length_append]; simp; omega)
        hs0 hchain

/-- Every run of `_chunk_text` produces a chunk chain tiling the word
sequence from index 0; the chunk list is empty only when there are no
words, and otherwise its last chunk ends at the last word. -/
theorem chunk_text_chain (text : PyStr) (csz ov : Int) :
    ∃ sP lbP, ChainFrom (pyWords text) ov.toNat 0 0 (chunk_text csz ov text) sP lbP ∧
      (chunk_text csz ov text = [] → pyWords text = []) ∧
      (chunk_text csz ov text ≠ [] → sP + lbP - 1 = (pyWords text).length) := by
  by_cases htext : text = []
  · subst htext
    exact ⟨0, 0, ⟨rfl, rfl⟩, fun _ => rfl, fun h => absurd rfl h⟩
  · obtain ⟨sF, pendF, hsF, hsF0, hfc, hpendF, hchainF⟩ :=
      chunkTextLoop_invariant csz ov (pyWords text) (pyWords text) 0 0 [] 0 [] 0
        (List.drop_zero _).symm (Nat.zero_le _) (le_refl 0) rfl (le_refl 0)
        (Or.inl rfl) ⟨rfl, rfl⟩
    rw [chunk_text, if_neg htext]
    by_cases hfcne : (chunkTextLoop csz ov (pyWords text) 0 [] 0 []).1 ≠ []
    · rw [if_pos hfcne]
      have hlen1 : (chunkTextLoop csz ov (pyWords text) 0 [] 0 []).1.length
          = (pyWords text).length - sF := by
        rw [hfc]; exact wordSlice_length _ _ _ (le_refl _)
      have hwcpos : 0 < (pyWords text).length - sF := by
        rcases Nat.eq_zero_or_pos ((pyWords text).length - sF) with h0 | h
        · exact absurd (List.length_eq_zero.mp (by omega)) hfcne
        · exact h
      have hchunkF : ChunkIs (pyWords text)
          (emitChunk (pyWords text).length
            (chunkTextLoop csz ov (pyWords text) 0 [] 0 []).1)
          sF ((pyWords text).length - sF) := by
        refine ⟨?_, rfl, ?_, ?_, ?_, hwcpos, by omega⟩
        · show joinWith [' '] (chunkTextLoop csz ov (pyWords text) 0 [] 0 []).1
            = joinWith [' ']
              (wordSlice (pyWords text) sF (sF + ((pyWords text).length - sF)))
          rw [hfc, show sF + ((pyWords text).length - sF)
            = (pyWords text).length by omega]
        · exact hlen1
        · show ((pyWords text).length : Int)
              - (chunkTextLoop csz ov (pyWords text) 0 [] 0 []).1.length = (sF : Int)
          rw [hlen1]; omega
        · show ((pyWords text).length : Int) - 1
            = (sF : Int) + (((pyWords text).length - sF : Nat) : Int) - 1
          omega
      have hchain2 := chainFrom_append (pyWords text) ov.toNat _ 0 0 sF pendF
        ((pyWords text).length - sF) _ hchainF (by omega) hchunkF
      refine ⟨sF + ((pyWords text).length - sF)
          - min ov.toNat ((pyWords text).length - sF),
        min ov.toNat ((pyWords text).length - sF) + 1, hchain2, ?_, ?_⟩
      · intro hempty; exact absurd hempty (by simp)
      · intro _
        have hm := min_le_right ov.toNat ((pyWords text).length - sF)
        omega
    · rw [if_neg hfcne]
      rw [not_not] at hfcne
      have hempty : pyWords text = [] := by
        rcases hsF0 with h0 | hlt2
        · subst h0
          have hws : wordSlice (pyWords text) 0 (pyWords text).length
              = pyWords text := by
            rw [wordSlice, List.drop_zero, Nat.sub_zero, List.take_length]
          rw [hws] at hfc
          rw [← hfc]; exact hfcne
        · exfalso
          have hl := wordSlice_length (pyWords text) sF (pyWords text).length
            (le_refl _)
          rw [← hfc, hfcne] at hl
          simp at hl
          omega
      refine ⟨sF, pendF, hchainF, fun _ => hempty, ?_⟩
      intro _
      have hlen0 : (pyWords text).length = 0 := by rw [hempty]; rfl
      have hp0 : pendF = 0 := by
        rw [hfcne] at hpendF
        simpa using hpendF
      omega

/-- The empty slice. -/
theorem wordSlice_self (words : List PyStr) (a : Nat) : wordSlice words a a = [] := by
  rw [wordSlice, Nat.sub_self, List.take_zero]

/-- The full slice. -/
theorem wordSlice_full (words : List PyStr) :
    wordSlice words 0 words.length = words := by
  rw [wordSlice, List.drop_zero, Nat.sub_zero, List.take_length]

/-- A chunk chain yields per-chunk absolute-index properties and the
adjacency relation between consecutive chunks: starts never decrease
(strictly increasing while the overlap stays below the predecessor's word
count) and each chunk starts with its predecessor's actual overlap
seed. -/
theorem chainFrom_chunk_props (words : List PyStr) (ovN : Nat)
    (hw : ∀ w ∈ words, w ≠ [] ∧ ∀ ch ∈ w, pyIsSpace ch = false) :
    ∀ (cs : List TextChunk) (s0 lb sP lbP : Nat),
      ChainFrom words ovN s0 lb cs sP lbP →
      (∀ c ∈ cs, ∃ s wc : Nat, 0 < wc ∧ s + wc ≤ words.length ∧
        c.start_word = (s : Int) ∧ c.end_word = (s : Int) + wc - 1 ∧
        c.word_count = wc ∧
        c.text = joinWith [' '] (wordSlice words s (s + wc)) ∧
        chunkWords c = wordSlice words s (s + wc)) ∧
      List.Chain' (fun c d =>
        c.start_word ≤ d.start_word ∧
        (ovN < c.word_count → c.start_word < d.start_word) ∧
        (chunkWords d).take (min ovN c.word_count)
          = (chunkWords c).drop (c.word_count - min ovN c.word_count)) cs := by
  intro cs
  induction cs with
  | nil => intro s0 lb sP lbP _; exact ⟨by simp, List.chain'_nil⟩
  | cons c cs' ih =>
    intro s0 lb sP lbP hch
    obtain ⟨wc, hlbwc, hc, hrest⟩ := hch
    have hcw := chunkWords_of_chunkIs words hw c s0 wc hc
    obtain ⟨ihProps, ihChain⟩ := ih _ _ _ _ hrest
    refine ⟨?_, ?_⟩
    · intro d hd
      rcases List.mem_cons.mp hd with rfl | hd2
      · exact ⟨s0, wc, hc.2.2.2.2.2.1, hc.2.2.2.2.2.2, hc.2.2.2.1,
          hc.2.2.2.2.1, hc.2.2.1, hc.1, hcw⟩
      · exact ihProps d hd2
    · cases cs' with
      | nil => exact List.chain'_singleton c
      | cons d cs'' =>
        rw [List.chain'_cons]
        refine ⟨?_, ihChain⟩
        obtain ⟨wc', hlb', hd', _⟩ := hrest
        have hm : min ovN wc ≤ wc := min_le_right _ _
        have hdw := chunkWords_of_chunkIs words hw d _ wc' hd'
        refine ⟨?_, ?_, ?_⟩
        · rw [hc.2.2.2.1, hd'.2.2.2.1]
          have hle : s0 ≤ s0 + wc - min ovN wc := by omega
          exact_mod_cast hle
        · intro hovlt
          rw [hc.2.2.1] at hovlt
          rw [hc.2.2.2.1, hd'.2.2.2.1]
          have hlt : s0 < s0 + wc - min ovN wc := by
            have hmeq : min ovN wc = ovN := min_eq_left (le_of_lt hovlt)
            omega
          exact_mod_cast hlt
        · rw [hc.2.2.1, hdw, hcw,
            wordSlice_take words _ _ _ (by omega), wordSlice_drop,
            show s0 + wc - min ovN wc + min ovN wc = s0 + wc by omega,
            show s0 + (wc - min ovN wc) = s0 + wc - min ovN wc by omega]

/-- Dropping each chunk's actual overlap seed, the tail of a chain
concatenates to the slice from the end of the previous chunk to the end
of the chain's last chunk. -/
theorem chainFrom_dropSeedAux (words : List PyStr) (ovN : Nat)
    (hw : ∀ w ∈ words, w ≠ [] ∧ ∀ ch ∈ w, pyIsSpace ch = false) :
    ∀ (cs : List TextChunk) (prev : TextChunk) (s0p wcP sP lbP : Nat),
      ChunkIs words prev s0p wcP →
      ChainFrom words ovN (s0p + wcP - min ovN wcP) (min ovN wcP + 1) cs sP lbP →
      dropSeedAux ovN prev cs
        = wordSlice words (s0p + wcP)
            (if cs = [] then s0p + wcP else sP + lbP - 1) := by
  intro cs
  induction cs with
  | nil =>
    intro prev s0p wcP sP lbP _ _
    rw [dropSeedAux, if_pos rfl, wordSlice_self]
  | cons c cs' ih =>
    intro prev s0p wcP sP lbP hprev hch
    obtain ⟨wc, hlbwc, hc, hrest⟩ := hch
    rw [dropSeedAux, if_neg (by simp)]
    have hm : min ovN wcP ≤ wcP := min_le_right _ _
    have hcw := chunkWords_of_chunkIs words hw c _ wc hc
    rw [hprev.2.2.1, hcw, wordSlice_drop,
      show s0p + wcP - min ovN wcP + min ovN wcP = s0p + wcP by omega,
      ih c (s0p + wcP - min ovN wcP) wc sP lbP hc hrest]
    by_cases hcs' : cs' = []
    · rw [if_pos hcs']
      subst hcs'
      obtain ⟨hsp, hlbp⟩ := hrest
      have hm2 : min ovN wc ≤ wc := min_le_right _ _
      have hend : sP + lbP - 1 = s0p + wcP - min ovN wcP + wc := by omega
      rw [hend, wordSlice_self, List.append_nil]
    · rw [if_neg hcs']
      have hle := chainFrom_le words ovN cs' _ _ _ _ hrest hcs'
      refine wordSlice_append words _ _ _ (by omega) ?_
      have hkey := hle.1
      omega

/-- Dropping each non-first chunk's actual overlap seed and concatenating
reconstructs the whole word sequence, for any chain covering it. -/
theorem chainFrom_dropSeedConcat (words : List PyStr) (ovN : Nat)
    (hw : ∀ w ∈ words, w ≠ [] ∧ ∀ ch ∈ w, pyIsSpace ch = false)
    (L : List TextChunk) (sP lbP : Nat)
    (hch : ChainFrom words ovN 0 0 L sP lbP) (hne : L ≠ [])
    (hend : sP + lbP - 1 = words.length) :
    dropSeedConcat ovN L = words := by
  cases L with
  | nil => exact absurd rfl hne
  | cons c0 cs' =>
    obtain ⟨wc0, _, hc0, hrest⟩ := hch
    rw [dropSeedConcat, chunkWords_of_chunkIs words hw c0 0 wc0 hc0,
      chainFrom_dropSeedAux words ovN hw cs' c0 0 wc0 sP lbP hc0 hrest]
    by_cases hcs' : cs' = []
    · rw [if_pos hcs']
      subst hcs'
      obtain ⟨hsp, hlbp⟩ := hrest
      have hm := min_le_right ovN wc0
      have hwc0 : 0 + wc0 = words.length := by omega
      rw [wordSlice_self, List.append_nil, hwc0, wordSlice_full]
    · rw [if_neg hcs', hend,
        wordSlice_append words 0 (0 + wc0) words.length (by omega) ?_,
        wordSlice_full]
      have hle := chainFrom_le words ovN cs' _ _ _ _ hrest hcs'
      have hkey := hle.1
      omega

/-- C9 amended: every chunk emitted by `_chunk_text` records absolute
start/end word indices into the original word sequence — its text is the
words from `start_word` through `end_word` joined by single spaces, with
`end_word = start_word + word_count - 1` — and consecutive chunks satisfy:
start offsets never decrease, they strictly increase whenever the
configured overlap is below the predecessor's word count, and each chunk
after the first begins with exactly `min(overlap, predecessor word count)`
trailing words of its predecessor (the claim's strict monotonicity and
exact-`overlap` prefix fail when the overlap reaches the predecessor's
word count). -/
theorem chunk_text_chunks_spec (text : PyStr) (csz ov : Int) :
    (∀ c ∈ chunk_text csz ov text, ∃ s wc : Nat, 0 < wc ∧
        s + wc ≤ (pyWords text).length ∧
        c.start_word = (s : Int) ∧ c.end_word = (s : Int) + wc - 1 ∧
        c.word_count = wc ∧
        c.text = joinWith [' '] (wordSlice (pyWords text) s (s + wc)) ∧
        chunkWords c = wordSlice (pyWords text) s (s + wc)) ∧
    List.Chain' (fun c d =>
      c.start_word ≤ d.start_word ∧
      (ov.toNat < c.word_count → c.start_word < d.start_word) ∧
      (chunkWords d).take (min ov.toNat c.word_count)
        = (chunkWords c).drop (c.word_count - min ov.toNat c.word_count))
      (chunk_text csz ov text) := by
  obtain ⟨sP, lbP, hch, _, _⟩ := chunk_text_chain text csz ov
  exact chainFrom_chunk_props (pyWords text) ov.toNat (pyWords_pieces text)
    _ _ _ _ _ hch

/-- C9 counterexample: at `chunk_size = 5`, `overlap = 3` on the two-word
text `"abcdefgh x"` both chunks start at word 0 (start offsets are not
strictly increasing although there are two chunks), and the second chunk
does not begin with 3 trailing words of its predecessor — the predecessor
has only one word. -/
theorem chunk_text_metadata_counterexample :
    chunk_text 5 3 c5Input
      = [⟨"abcdefgh".toList, 8, 1, 0, 0⟩, ⟨"abcdefgh x".toList, 10, 2, 0, 1⟩] ∧
    ¬ ((0 : Int) < (0 : Int)) ∧
    (chunkWords (⟨"abcdefgh x".toList, 10, 2, 0, 1⟩ : TextChunk)).take 3
      ≠ pyTakeLast 3 (chunkWords (⟨"abcdefgh".toList, 8, 1, 0, 0⟩ : TextChunk)) := by
  refine ⟨by decide, by decide, by decide⟩

/-- C5 amended: for `overlap < chunkSize`, dropping from each non-first
chunk its actual overlap seed — the last `min(overlap, predecessor word
count)` words of the predecessor — and concatenating reproduces the
original word sequence exactly. -/
theorem chunk_text_reconstruction (text : PyStr) (csz ov : Int)
    (_h : ov < csz) :
    dropSeedConcat ov.toNat (chunk_text csz ov text) = pyWords text := by
  obtain ⟨sP, lbP, hch, hnil, hend⟩ := chunk_text_chain text csz ov
  by_cases hL : chunk_text csz ov text = []
  · rw [hL, hnil hL]; rfl
  · exact chainFrom_dropSeedConcat (pyWords text) ov.toNat (pyWords_pieces text)
      _ _ _ hch hL (hend hL)

/-- Witness for the amended C5 theorem at `chunkSize = 5`, `overlap = 1`
on the text `"a b"`. -/
theorem chunk_text_reconstruction_witness :
    ((1 : Int) < 5) ∧
      dropSeedConcat (1 : Int).toNat (chunk_text 5 1 ("a b".toList))
        = pyWords ("a b".toList) :=
  ⟨by norm_num, chunk_text_reconstruction ("a b".toList) 5 1 (by norm_num)⟩

/-- C5 counterexample: reading "drop the overlapping word prefix" as
dropping the configured `overlap` number of words loses words.  At
`chunk_size = 5`, `overlap = 3` (so `overlap < chunkSize`) on
`"abcdefgh x"`, the drop-3 reconstruction yields one word while the
original sequence has two. -/
theorem chunk_text_drop_configured_fails :
    ((3 : Int) < 5) ∧
    dropConfiguredConcat (3 : Int).toNat (chunk_text 5 3 c5Input)
      = [("abcdefgh".toList)] ∧
    pyWords c5Input = [("abcdefgh".toList), ("x".toList)] ∧
    dropConfiguredConcat (3 : Int).toNat (chunk_text 5 3 c5Input)
      ≠ pyWords c5Input := by
  refine ⟨by norm_num, by decide, by decide, by decide⟩
